import Mathlib

/-
Verification of the Python file analyzer (utils/py-file-analyzer/main.py).

The development shallowly embeds the analyzer: the AST visitor
(ComplexityAnalyzer), the function-boundary resolver (_find_function_end),
the per-file metrics and notes engine (analyze_file and
_calculate_function_buckets), the collector loop (collect_python_files)
and the reporter (sorting and truncation in main).  Definitions written
from the specification text instead of the code are marked as such in
their doc comments.
-/

set_option linter.unusedVariables false

namespace PyAnalyzer

/-- Source-position attributes of an AST node.  Both attributes are
optional: a node may lack the attribute entirely (the hasattr checks in
find_last_node), and end_lineno may be None. -/
structure Pos where
  lineno : Option Nat
  end_lineno : Option Nat
deriving Repr, DecidableEq

/-- Node kinds the visitor distinguishes; every other kind of node is
otherK and is handled by generic_visit alone.  For function nodes,
bodyLen records the length of the node's body field, the value of
len(node.body) used for the statement count. -/
inductive Kind where
  | importK (names : List String)
  | importFromK (module : Option String) (names : List String)
  | classDefK (name : String)
  | functionDefK (name : String) (bodyLen : Nat)
  | asyncFunctionDefK (name : String) (bodyLen : Nat)
  | otherK
deriving Repr, DecidableEq

/-- A Python AST node: position attributes, kind, and the child nodes in
the field order traversed by generic_visit and ast.walk. -/
inductive Node where
  | mk (pos : Pos) (kind : Kind) (children : List Node)
deriving Repr

/-- Position attributes of a node. -/
def Node.pos : Node → Pos
  | .mk p _ _ => p

/-- Child nodes of a node. -/
def Node.children : Node → List Node
  | .mk _ _ cs => cs

/-- Value read for a node's lineno where the code guards with hasattr:
the attribute's value when present, 0 otherwise (the loop in
find_last_node initialises last to 0 when the attribute is missing). -/
def linenoVal (p : Pos) : Nat := p.lineno.getD 0

/-- Truthiness test corresponding to hasattr(n, end_lineno) and
n.end_lineno: present, non-None and nonzero. -/
def truthyEnd (p : Pos) : Bool :=
  match p.end_lineno with
  | some k => k != 0
  | none => false

/-- Contribution of a node's end_lineno to the running maximum in the
ast.walk loop: its value when present and truthy, otherwise nothing
(0 is neutral for max). -/
def truthyEndVal (p : Pos) : Nat :=
  match p.end_lineno with
  | some k => if k != 0 then k else 0
  | none => 0

mutual
/-- Maximum line number seen by the ast.walk loop in find_last_node:
over the node itself and every descendant, each lineno when present and
each end_lineno when present and truthy. -/
def walkMax : Node → Nat
  | .mk p _ cs => max (linenoVal p) (max (truthyEndVal p) (walkMaxList cs))

/-- Pointwise extension of walkMax to a list of sibling subtrees. -/
def walkMaxList : List Node → Nat
  | [] => 0
  | c :: cs => max (walkMax c) (walkMaxList cs)
end

/-- Embedding of find_last_node from ComplexityAnalyzer._find_function_end:
last starts from the node's own lineno (0 when absent); if the node's own
end_lineno is present and truthy the function returns max(last, end_lineno)
immediately, without scanning descendants; otherwise it scans the whole
subtree with ast.walk and returns the maximum line seen. -/
def find_last_node (n : Node) : Nat :=
  let last := linenoVal n.pos
  if truthyEnd n.pos then max last (n.pos.end_lineno.getD 0)
  else walkMax n

/-- Embedding of ComplexityAnalyzer._find_function_end: find_last_node
clamped below by the node's own lineno (the no-content case). -/
def find_function_end (n : Node) : Nat :=
  let e := find_last_node n
  if e < linenoVal n.pos then linenoVal n.pos else e

mutual
/-- Modelled from the spec: "endLine = the maximum, over the node itself
and every descendant node in its subtree, of (a) the descendant's own
declared start line and (b) the descendant's own declared end line when
available". -/
def specSubtreeMax : Node → Nat
  | .mk p _ cs => max (linenoVal p) (max (p.end_lineno.getD 0) (specSubtreeMaxList cs))

/-- Pointwise extension of specSubtreeMax to a list of sibling subtrees. -/
def specSubtreeMaxList : List Node → Nat
  | [] => 0
  | c :: cs => max (specSubtreeMax c) (specSubtreeMaxList cs)
end

/-- Modelled from the spec: the claimed endLine of a declaration node,
namely the subtree maximum clamped below by the node's own start line
("if the computed end precedes the start, clamp endLine = startLine"). -/
def specEndLine (n : Node) : Nat :=
  let m := specSubtreeMax n
  if m < linenoVal n.pos then linenoVal n.pos else m

/-- Embedding of the FunctionInfo dataclass. -/
structure FunctionInfo where
  name : String
  lines : Nat
  statements : Nat
  is_async : Bool
  is_method : Bool
  class_name : Option String
deriving Repr, DecidableEq

/-- Mutable visitor state of ComplexityAnalyzer (the fields the visitor
reads or writes; file_path and source_lines are stored but never used). -/
structure AnalyzerState where
  functions : List FunctionInfo
  classes : List String
  imports : List String
  class_stack : List String
deriving Repr, DecidableEq

/-- Freshly constructed ComplexityAnalyzer state. -/
def initState : AnalyzerState := ⟨[], [], [], []⟩

mutual
/-- Embedding of ComplexityAnalyzer.visit: dispatch on the node kind to
visit_Import, visit_ImportFrom, visit_ClassDef, visit_FunctionDef or
visit_AsyncFunctionDef, and to generic_visit for every other kind.
visit_Import appends alias.name for each alias, then recurses;
visit_ImportFrom computes module = node.module or "" and appends
module.name per alias when module is truthy, the bare name otherwise,
then recurses; visit_ClassDef appends the class name, pushes it on
class_stack, recurses, then pops (list.pop removes the last element). -/
def visitNode (s : AnalyzerState) : Node → AnalyzerState
  | .mk _ (.importK names) cs =>
      visitList { s with imports := s.imports ++ names } cs
  | .mk _ (.importFromK module names) cs =>
      let m := module.getD ""
      let entries := if m != "" then names.map (fun n => m ++ "." ++ n) else names
      visitList { s with imports := s.imports ++ entries } cs
  | .mk _ (.classDefK name) cs =>
      let s1 := { s with classes := s.classes ++ [name],
                         class_stack := s.class_stack ++ [name] }
      let s2 := visitList s1 cs
      { s2 with class_stack := s2.class_stack.dropLast }
  | .mk p (.functionDefK name bodyLen) cs =>
      processFunction s p (.functionDefK name bodyLen) cs name bodyLen false
  | .mk p (.asyncFunctionDefK name bodyLen) cs =>
      processFunction s p (.asyncFunctionDefK name bodyLen) cs name bodyLen true
  | .mk _ .otherK cs => visitList s cs

/-- Embedding of ComplexityAnalyzer._process_function: start_line is the
node's lineno, end_line comes from _find_function_end, lines is
end_line - start_line + 1, statements is len(node.body), is_method is
the truthiness of class_stack, class_name its last element when any;
the record is appended to functions and generic_visit recurses into the
children. -/
def processFunction (s : AnalyzerState) (p : Pos) (kind : Kind) (cs : List Node)
    (name : String) (bodyLen : Nat) (is_async : Bool) : AnalyzerState :=
  let start_line := linenoVal p
  let end_line := find_function_end (.mk p kind cs)
  let lines := end_line - start_line + 1
  let is_method := !s.class_stack.isEmpty
  let class_name := s.class_stack.getLast?
  let func_info : FunctionInfo := ⟨name, lines, bodyLen, is_async, is_method, class_name⟩
  visitList { s with functions := s.functions ++ [func_info] } cs

/-- Embedding of NodeVisitor.generic_visit: visit each child in order,
threading the mutable analyzer state. -/
def visitList (s : AnalyzerState) : List Node → AnalyzerState
  | [] => s
  | c :: cs => visitList (visitNode s c) cs
end

/-- Modelled from the spec (import extraction contract): the entries a
single import statement contributes — each alias name for a plain
import; for a from-import with truthy module prefix M, M.name per alias;
bare names when there is no module prefix. -/
def importEntriesOf : Kind → List String
  | .importK names => names
  | .importFromK module names =>
      let m := module.getD ""
      if m != "" then names.map (fun n => m ++ "." ++ n) else names
  | _ => []

mutual
/-- Modelled from the spec: every import entry occurring anywhere in the
subtree, in tree-visitation (pre-)order. -/
def importsOf : Node → List String
  | .mk _ kind cs => importEntriesOf kind ++ importsOfList cs

/-- Pointwise extension of importsOf to a list of sibling subtrees. -/
def importsOfList : List Node → List String
  | [] => []
  | c :: cs => importsOf c ++ importsOfList cs
end

mutual
/-- Well-formedness of a parse tree as produced by ast.parse: every
class-definition node carries a nonempty name (Python class names are
nonempty identifiers). -/
def noEmptyClassNames : Node → Bool
  | .mk _ (.classDefK name) cs => name != "" && noEmptyClassNamesList cs
  | .mk _ (.importK _) cs => noEmptyClassNamesList cs
  | .mk _ (.importFromK _ _) cs => noEmptyClassNamesList cs
  | .mk _ (.functionDefK _ _) cs => noEmptyClassNamesList cs
  | .mk _ (.asyncFunctionDefK _ _) cs => noEmptyClassNamesList cs
  | .mk _ .otherK cs => noEmptyClassNamesList cs

/-- Pointwise extension of noEmptyClassNames to a list of subtrees. -/
def noEmptyClassNamesList : List Node → Bool
  | [] => true
  | c :: cs => noEmptyClassNames c && noEmptyClassNamesList cs
end

/-- One heuristic note of analyze_file.  The source renders each note as
an f-string; each constructor stands for one template together with the
value interpolated into it. -/
inductive Note where
  | couldNotReadOrDecode
  | couldNotRead (msg : String)
  | parseFailure (msg : String)
  | manyClasses (count : Nat)
  | veryLongFunctions (count : Nat)
  | longFunctions (count : Nat)
  | complexFunctions (count : Nat)
  | mixedAsyncSync
  | mixedWebDatabase
deriving Repr, DecidableEq

/-- Web-framework import name list from analyze_file. -/
def web_imports : List String :=
  ["flask", "django", "fastapi", "tornado", "aiohttp", "requests", "httpx"]

/-- Database import name list from analyze_file. -/
def db_imports : List String :=
  ["sqlalchemy", "psycopg2", "pymongo", "sqlite3", "redis", "asyncpg"]

/-- Embedding of the notes generation in analyze_file: many classes,
the long-function pair (very long takes priority, else long), complex
functions, mixed async/sync patterns, and mixed web and database
concerns, appended in this fixed order. -/
def buildNotes (classes : List String) (functions : List FunctionInfo)
    (imports : List String) : List Note :=
  let notes1 : List Note :=
    if 3 < classes.length then [.manyClasses classes.length] else []
  let long_funcs := functions.filter fun f => 50 < f.lines
  let very_long_funcs := functions.filter fun f => 100 < f.lines
  let notes2 : List Note :=
    if very_long_funcs ≠ [] then [.veryLongFunctions very_long_funcs.length]
    else if long_funcs ≠ [] then [.longFunctions long_funcs.length]
    else []
  let high_stmt_funcs := functions.filter fun f => 20 < f.statements
  let notes3 : List Note :=
    if high_stmt_funcs ≠ [] then [.complexFunctions high_stmt_funcs.length] else []
  let has_async := functions.any fun f => f.is_async
  let has_sync := functions.any fun f => !f.is_async
  let notes4 : List Note :=
    if has_async && has_sync && decide (5 < functions.length) then [.mixedAsyncSync] else []
  let has_web := imports.any fun imp => web_imports.any fun web => imp.startsWith web
  let has_db := imports.any fun imp => db_imports.any fun db => imp.startsWith db
  let notes5 : List Note :=
    if has_web && has_db then [.mixedWebDatabase] else []
  notes1 ++ notes2 ++ notes3 ++ notes4 ++ notes5

/-- Truthiness of func.class_name in the condition
"func.is_method and func.class_name": non-None and nonempty. -/
def classNameTruthy : Option String → Bool
  | some c => c != ""
  | none => false

/-- Embedding of the dict update
method_counts[c] = method_counts.get(c, 0) + 1 on an insertion-ordered
association list: an existing key is incremented in place, a new key is
appended with count 1. -/
def bump : List (String × Nat) → String → List (String × Nat)
  | [], k => [(k, 1)]
  | (k1, v) :: rest, k =>
      if k1 = k then (k1, v + 1) :: rest else (k1, v) :: bump rest k

/-- One iteration of the method-count loop in analyze_file. -/
def countsStep (acc : List (String × Nat) × Nat) (f : FunctionInfo) :
    List (String × Nat) × Nat :=
  if f.is_method && classNameTruthy f.class_name then
    (bump acc.1 (f.class_name.getD ""), acc.2)
  else if !f.is_method then
    (acc.1, acc.2 + 1)
  else acc

/-- Embedding of the loop in analyze_file computing method_counts and
top_level_functions from the extracted functions. -/
def countsLoop (fs : List FunctionInfo) : List (String × Nat) × Nat :=
  fs.foldl countsStep ([], 0)

/-- Sum of the counts stored in a method_counts association list. -/
def sumVals (mc : List (String × Nat)) : Nat := (mc.map Prod.snd).sum

/-- Embedding of the FileAnalysis dataclass. -/
structure FileAnalysis where
  path : String
  lines : Nat
  classes : List String
  functions : List FunctionInfo
  imports : List String
  method_counts : List (String × Nat)
  top_level_functions : Nat
  notes : List Note
deriving Repr, DecidableEq

/-- Observable input of analyze_file for one file: the count_file_lines
result (0 when that read fails or the file is empty), the outcome of the
second read, and the outcome of ast.parse on the text that was read. -/
structure FileInput where
  path : String
  lines : Nat
  readRes : Except String Unit
  parseRes : Except String Node

/-- Embedding of analyze_file: a zero line count yields the
could-not-read-or-decode analysis; a failing second read yields an
analysis keeping the counted lines with one note; a SyntaxError from
ast.parse likewise; otherwise the visitor runs and the metrics engine
assembles the full record. -/
def analyze_file (fi : FileInput) : FileAnalysis :=
  if fi.lines = 0 then
    { path := fi.path, lines := 0, classes := [], functions := [], imports := [],
      method_counts := [], top_level_functions := 0, notes := [.couldNotReadOrDecode] }
  else
    match fi.readRes with
    | .error e =>
        { path := fi.path, lines := fi.lines, classes := [], functions := [],
          imports := [], method_counts := [], top_level_functions := 0,
          notes := [.couldNotRead e] }
    | .ok _ =>
      match fi.parseRes with
      | .error e =>
          { path := fi.path, lines := fi.lines, classes := [], functions := [],
            imports := [], method_counts := [], top_level_functions := 0,
            notes := [.parseFailure e] }
      | .ok tree =>
          let st := visitNode initState tree
          let mcTop := countsLoop st.functions
          { path := fi.path, lines := fi.lines, classes := st.classes,
            functions := st.functions, imports := st.imports,
            method_counts := mcTop.1, top_level_functions := mcTop.2,
            notes := buildNotes st.classes st.functions st.imports }

/-- Well-formedness of a file input: when parsing succeeded, the tree has
no empty class names (always true for trees produced by ast.parse). -/
def FileInput.wf (fi : FileInput) : Bool :=
  match fi.parseRes with
  | .ok t => noEmptyClassNames t
  | .error _ => true

/-- Embedding of the loop in collect_python_files over the surviving
files of the directory walk: each file is analyzed in turn and its
analysis appended, whatever the per-file outcome was. -/
def collect_python_files : List FileInput → List FileAnalysis
  | [] => []
  | fi :: rest => analyze_file fi :: collect_python_files rest

/-- Function length buckets of _calculate_function_buckets. -/
structure Buckets where
  over100 : Nat
  between50_100 : Nat
  between20_49 : Nat
  under20 : Nat
deriving Repr, DecidableEq

/-- One iteration of the bucket loop: lines over 100, else at least 50,
else at least 20, else under 20. -/
def bucketStep (b : Buckets) (f : FunctionInfo) : Buckets :=
  if 100 < f.lines then { b with over100 := b.over100 + 1 }
  else if 50 ≤ f.lines then { b with between50_100 := b.between50_100 + 1 }
  else if 20 ≤ f.lines then { b with between20_49 := b.between20_49 + 1 }
  else { b with under20 := b.under20 + 1 }

/-- Embedding of _calculate_function_buckets. -/
def calculate_function_buckets (fs : List FunctionInfo) : Buckets :=
  fs.foldl bucketStep ⟨0, 0, 0, 0⟩

/-- Sort key relation used by main: a precedes b when its line count is
at least b's (descending by lines). -/
def linesGE (a b : FileAnalysis) : Prop := b.lines ≤ a.lines

instance : DecidableRel linesGE := fun a b => Nat.decLe b.lines a.lines

instance : IsTotal FileAnalysis linesGE := ⟨fun a b => Nat.le_total b.lines a.lines⟩

instance : IsTrans FileAnalysis linesGE := ⟨fun _ _ _ h1 h2 => Nat.le_trans h2 h1⟩

/-- Embedding of analyses.sort(key=lambda a: a.lines, reverse=True):
Python's list.sort is a stable sort, realised here by a stable insertion
sort (all stable sorts under one total preorder compute the same list). -/
def sortAnalyses (l : List FileAnalysis) : List FileAnalysis :=
  l.insertionSort linesGE

/-- File blocks printed by main: the sorted list truncated to
limit = min(args.n, len(analyses)); range(limit) is empty when the limit
is not positive. -/
def displayedFiles (n : Int) (analyses : List FileAnalysis) : List FileAnalysis :=
  let sorted := sortAnalyses analyses
  let limit : Int := min n (analyses.length : Int)
  sorted.take limit.toNat

/-- Default of the -n argument. -/
def defaultN : Int := 20

/-- Embedding of the tail of main: on an empty collection print the
no-files message and return (exit code 0); otherwise sort, truncate and
print the blocks (exit code 0).  The result pairs the exit code with the
printed file blocks. -/
def runMain (n : Int) (analyses : List FileAnalysis) : Nat × List FileAnalysis :=
  if analyses.isEmpty then (0, [])
  else (0, displayedFiles n analyses)

/-- Concrete counterexample node for the boundary-resolver claim: the
node's own end_lineno (2) is truthy, so find_last_node returns without
scanning the child whose declared line is 10. -/
def cexNode : Node :=
  .mk ⟨some 1, some 2⟩ (.functionDefK "f" 1) [.mk ⟨some 10, none⟩ .otherK []]

/-- Concrete unparsable file input with a nonzero line count. -/
def cexParseFail : FileInput :=
  { path := "bad.py", lines := 3, readRes := .ok (), parseRes := .error "invalid syntax" }

/-- Concrete sample tree: two imports, a class with one method containing
a nested from-import with duplicate names, and an async top-level
function. -/
def sampleTree : Node :=
  .mk ⟨none, none⟩ .otherK
    [ .mk ⟨some 1, some 1⟩ (.importK ["os", "sys"]) [],
      .mk ⟨some 2, some 2⟩ (.importFromK (some "collections") ["OrderedDict"]) [],
      .mk ⟨some 4, some 9⟩ (.classDefK "C")
        [ .mk ⟨some 5, some 7⟩ (.functionDefK "m" 2)
            [ .mk ⟨some 6, some 6⟩ (.importFromK none ["x", "x"]) [] ] ],
      .mk ⟨some 11, some 13⟩ (.asyncFunctionDefK "g" 1) [] ]

/-- Concrete parsed file input built over sampleTree. -/
def sampleInput : FileInput :=
  { path := "sample.py", lines := 13, readRes := .ok (), parseRes := .ok sampleTree }

/-- Concrete FunctionInfo records used by witnesses. -/
def fi10 : FunctionInfo := ⟨"a", 10, 1, false, false, none⟩

/-- Concrete 100-line FunctionInfo used by witnesses. -/
def fi100 : FunctionInfo := ⟨"b", 100, 2, false, false, none⟩

/-- Concrete 120-line FunctionInfo used by witnesses. -/
def fi120 : FunctionInfo := ⟨"c", 120, 3, false, false, none⟩

/-- Concrete file analyses with distinct and tied line counts, used by
the reporter witnesses. -/
def fa (nm : String) (k : Nat) : FileAnalysis :=
  { path := nm, lines := k, classes := [], functions := [], imports := [],
    method_counts := [], top_level_functions := 0, notes := [] }


/-- Coherence invariant of extracted FunctionInfo records: a method
carries the innermost enclosing class as a nonempty name; a non-method
carries none. -/
def goodFn (f : FunctionInfo) : Prop :=
  (f.is_method = true ∧ ∃ c, f.class_name = some c ∧ c ≠ "")
  ∨ (f.is_method = false ∧ f.class_name = none)

/-- Concrete tree holding one 60-line top-level function. -/
def w6Tree : Node :=
  .mk ⟨none, none⟩ .otherK [.mk ⟨some 1, some 60⟩ (.functionDefK "big" 3) []]

/-- Concrete parsed file input over w6Tree. -/
def w6Input : FileInput :=
  { path := "w.py", lines := 60, readRes := .ok (), parseRes := .ok w6Tree }

theorem truthyEndVal_eq_getD (p : Pos) : truthyEndVal p = p.end_lineno.getD 0 := by
  unfold truthyEndVal
  cases p.end_lineno with
  | none => rfl
  | some k =>
    by_cases h : k = 0
    · simp [h]
    · simp [h]

mutual
theorem walkMax_eq_spec (n : Node) : walkMax n = specSubtreeMax n := by
  match n with
  | .mk p kind cs =>
    rw [walkMax, specSubtreeMax, truthyEndVal_eq_getD, walkMaxList_eq_spec cs]

theorem walkMaxList_eq_spec (cs : List Node) : walkMaxList cs = specSubtreeMaxList cs := by
  match cs with
  | [] => rfl
  | c :: cs1 =>
    rw [walkMaxList, specSubtreeMaxList, walkMax_eq_spec c, walkMaxList_eq_spec cs1]
end

theorem find_function_end_ge_lineno (n : Node) : linenoVal n.pos ≤ find_function_end n := by
  unfold find_function_end
  dsimp only
  split <;> omega

/-- C1 (amended): startLine is the node's own declared line.  When the
node's own declared end line is absent or zero, endLine is exactly the
spec's value: the maximum over the node and every descendant of declared
start lines and available end lines, clamped to startLine.  When the
node's own declared end line is present and nonzero, the descendant scan
is skipped and endLine = max(startLine, own end line). -/
theorem c1_boundary_resolver (p : Pos) (kind : Kind) (cs : List Node) (l : Nat)
    (h : p.lineno = some l) :
    linenoVal p = l
    ∧ (truthyEnd p = false →
      find_function_end (Node.mk p kind cs) = specEndLine (Node.mk p kind cs))
    ∧ (truthyEnd p = true →
      find_function_end (Node.mk p kind cs) = max l (p.end_lineno.getD 0)) := by
  have hpos : (Node.mk p kind cs).pos = p := rfl
  have hl : linenoVal p = l := by simp [linenoVal, h]
  refine ⟨hl, ?_, ?_⟩
  · intro ht
    unfold find_function_end find_last_node specEndLine
    rw [hpos, ht, walkMax_eq_spec]
    simp
  · intro ht
    unfold find_function_end find_last_node
    rw [hpos, ht, hl]
    have hle : l ≤ max l (p.end_lineno.getD 0) := Nat.le_max_left _ _
    simp only [if_true]
    rw [if_neg (by omega)]

/-- Witness for C1: a concrete node with no own end line, where the
resolver agrees with the spec-claimed subtree maximum. -/
theorem c1_boundary_resolver_witness :
    find_function_end (Node.mk ⟨some 3, none⟩ (.functionDefK "g" 0) [])
      = specEndLine (Node.mk ⟨some 3, none⟩ (.functionDefK "g" 0) []) :=
  (c1_boundary_resolver ⟨some 3, none⟩ (.functionDefK "g" 0) [] 3 rfl).2.1 rfl

/-- Counterexample for C1 as stated: on cexNode the node's own end line
is 2 while a descendant's declared line is 10; the code returns 2, the
claimed maximum over the subtree (clamped) is 10. -/
theorem c1_boundary_resolver_cex :
    find_function_end cexNode = 2 ∧ specEndLine cexNode = 10 ∧
      find_function_end cexNode ≠ specEndLine cexNode :=
  ⟨by decide, by decide, by decide⟩

theorem foldl_bucket_over100 (fs : List FunctionInfo) (b : Buckets) :
    (fs.foldl bucketStep b).over100
      = b.over100 + (fs.filter fun f => 100 < f.lines).length := by
  induction fs generalizing b with
  | nil => simp
  | cons f fs ih =>
    rw [List.foldl_cons, ih, List.filter_cons]
    unfold bucketStep
    split_ifs <;> simp_all <;> omega

theorem foldl_bucket_between50 (fs : List FunctionInfo) (b : Buckets) :
    (fs.foldl bucketStep b).between50_100
      = b.between50_100 + (fs.filter fun f => 50 ≤ f.lines ∧ f.lines ≤ 100).length := by
  induction fs generalizing b with
  | nil => simp
  | cons f fs ih =>
    rw [List.foldl_cons, ih, List.filter_cons]
    unfold bucketStep
    split_ifs <;> simp_all <;> omega

theorem foldl_bucket_between20 (fs : List FunctionInfo) (b : Buckets) :
    (fs.foldl bucketStep b).between20_49
      = b.between20_49 + (fs.filter fun f => 20 ≤ f.lines ∧ f.lines ≤ 49).length := by
  induction fs generalizing b with
  | nil => simp
  | cons f fs ih =>
    rw [List.foldl_cons, ih, List.filter_cons]
    unfold bucketStep
    split_ifs <;> simp_all <;> omega

theorem foldl_bucket_under20 (fs : List FunctionInfo) (b : Buckets) :
    (fs.foldl bucketStep b).under20
      = b.under20 + (fs.filter fun f => f.lines < 20).length := by
  induction fs generalizing b with
  | nil => simp
  | cons f fs ih =>
    rw [List.foldl_cons, ih, List.filter_cons]
    unfold bucketStep
    split_ifs <;> simp_all <;> omega

theorem foldl_bucket_total (fs : List FunctionInfo) (b : Buckets) :
    (fs.foldl bucketStep b).over100 + (fs.foldl bucketStep b).between50_100
        + (fs.foldl bucketStep b).between20_49 + (fs.foldl bucketStep b).under20
      = b.over100 + b.between50_100 + b.between20_49 + b.under20 + fs.length := by
  induction fs generalizing b with
  | nil => simp
  | cons f fs ih =>
    rw [List.foldl_cons, ih]
    unfold bucketStep
    split_ifs <;> simp <;> omega

/-- C3: the four length buckets partition the function list exactly;
over100 counts lineCount over 100, between50And100 counts 50 to 100
inclusive, between20And49 counts 20 to 49 inclusive, under20 counts
under 20; a function of exactly 100 lines (the concrete record fi100)
lands in between50And100, never over100. -/
theorem c3_function_buckets (fs : List FunctionInfo) :
    (calculate_function_buckets fs).over100 + (calculate_function_buckets fs).between50_100
        + (calculate_function_buckets fs).between20_49 + (calculate_function_buckets fs).under20
      = fs.length
    ∧ (calculate_function_buckets fs).over100
        = (fs.filter fun f => 100 < f.lines).length
    ∧ (calculate_function_buckets fs).between50_100
        = (fs.filter fun f => 50 ≤ f.lines ∧ f.lines ≤ 100).length
    ∧ (calculate_function_buckets fs).between20_49
        = (fs.filter fun f => 20 ≤ f.lines ∧ f.lines ≤ 49).length
    ∧ (calculate_function_buckets fs).under20
        = (fs.filter fun f => f.lines < 20).length
    ∧ (calculate_function_buckets [fi100]).over100 = 0
    ∧ (calculate_function_buckets [fi100]).between50_100 = 1 := by
  have h1 := foldl_bucket_over100 fs ⟨0, 0, 0, 0⟩
  have h2 := foldl_bucket_between50 fs ⟨0, 0, 0, 0⟩
  have h3 := foldl_bucket_between20 fs ⟨0, 0, 0, 0⟩
  have h4 := foldl_bucket_under20 fs ⟨0, 0, 0, 0⟩
  have h5 := foldl_bucket_total fs ⟨0, 0, 0, 0⟩
  dsimp only at h1 h2 h3 h4 h5
  unfold calculate_function_buckets
  exact ⟨by omega, by omega, by omega, by omega, by omega, by decide, by decide⟩

mutual
theorem visitNode_imports (s : AnalyzerState) (n : Node) :
    (visitNode s n).imports = s.imports ++ importsOf n := by
  match n with
  | .mk p kind cs =>
    cases kind <;>
      simp [visitNode, importsOf, importEntriesOf, processFunction,
            visitList_imports, List.append_assoc]

theorem visitList_imports (s : AnalyzerState) (cs : List Node) :
    (visitList s cs).imports = s.imports ++ importsOfList cs := by
  match cs with
  | [] => simp [visitList, importsOfList]
  | c :: cs1 =>
    simp [visitList, importsOfList, visitList_imports _ cs1, visitNode_imports s c,
          List.append_assoc]
end

mutual
theorem visitNode_stack (s : AnalyzerState) (n : Node) :
    (visitNode s n).class_stack = s.class_stack := by
  match n with
  | .mk p kind cs =>
    cases kind <;>
      simp [visitNode, processFunction, visitList_stack, List.dropLast_concat]

theorem visitList_stack (s : AnalyzerState) (cs : List Node) :
    (visitList s cs).class_stack = s.class_stack := by
  match cs with
  | [] => simp [visitList]
  | c :: cs1 => simp [visitList, visitList_stack _ cs1, visitNode_stack s c]
end

mutual
theorem visitNode_funcs_append (s : AnalyzerState) (n : Node) :
    ∃ l, (visitNode s n).functions = s.functions ++ l := by
  match n with
  | .mk p kind cs =>
    cases kind with
    | importK names =>
        simp only [visitNode]
        exact visitList_funcs_append _ cs
    | importFromK m names =>
        simp only [visitNode]
        exact visitList_funcs_append _ cs
    | classDefK name =>
        obtain ⟨l, hl⟩ := visitList_funcs_append
          { s with classes := s.classes ++ [name],
                   class_stack := s.class_stack ++ [name] } cs
        exact ⟨l, by simp [visitNode, hl]⟩
    | functionDefK name bl =>
        obtain ⟨fi, l, hl, _⟩ := processFunction_funcs_append s p (.functionDefK name bl) cs name bl false
        exact ⟨fi :: l, by simp [visitNode, hl]⟩
    | asyncFunctionDefK name bl =>
        obtain ⟨fi, l, hl, _⟩ := processFunction_funcs_append s p (.asyncFunctionDefK name bl) cs name bl true
        exact ⟨fi :: l, by simp [visitNode, hl]⟩
    | otherK =>
        simp only [visitNode]
        exact visitList_funcs_append _ cs

theorem processFunction_funcs_append (s : AnalyzerState) (p : Pos) (kind : Kind)
    (cs : List Node) (name : String) (bl : Nat) (ia : Bool) :
    ∃ fi l, (processFunction s p kind cs name bl ia).functions = s.functions ++ fi :: l
      ∧ fi.lines = find_function_end (Node.mk p kind cs) - linenoVal p + 1 := by
  obtain ⟨l, hl⟩ := visitList_funcs_append
    { s with functions := s.functions ++
        [⟨name, find_function_end (Node.mk p kind cs) - linenoVal p + 1, bl, ia,
          !s.class_stack.isEmpty, s.class_stack.getLast?⟩] } cs
  refine ⟨⟨name, find_function_end (Node.mk p kind cs) - linenoVal p + 1, bl, ia,
    !s.class_stack.isEmpty, s.class_stack.getLast?⟩, l, ?_, rfl⟩
  unfold processFunction
  dsimp only
  rw [hl]
  simp

theorem visitList_funcs_append (s : AnalyzerState) (cs : List Node) :
    ∃ l, (visitList s cs).functions = s.functions ++ l := by
  match cs with
  | [] => exact ⟨[], by simp [visitList]⟩
  | c :: cs1 =>
    obtain ⟨l1, h1⟩ := visitNode_funcs_append s c
    obtain ⟨l2, h2⟩ := visitList_funcs_append (visitNode s c) cs1
    exact ⟨l1 ++ l2, by simp [visitList, h2, h1]⟩
end

mutual
theorem visitNode_lines_pos (s : AnalyzerState) (n : Node)
    (h : ∀ f ∈ s.functions, 1 ≤ f.lines) :
    ∀ f ∈ (visitNode s n).functions, 1 ≤ f.lines := by
  match n with
  | .mk p kind cs =>
    cases kind with
    | importK names =>
        intro f hf
        simp only [visitNode] at hf
        refine visitList_lines_pos _ cs ?_ f hf
        exact h
    | importFromK m names =>
        intro f hf
        simp only [visitNode] at hf
        refine visitList_lines_pos _ cs ?_ f hf
        exact h
    | classDefK name =>
        intro f hf
        simp only [visitNode] at hf
        exact visitList_lines_pos
          { s with classes := s.classes ++ [name],
                   class_stack := s.class_stack ++ [name] } cs h f hf
    | functionDefK name bl =>
        intro f hf
        simp only [visitNode] at hf
        exact processFunction_lines_pos s p _ cs name bl false h f hf
    | asyncFunctionDefK name bl =>
        intro f hf
        simp only [visitNode] at hf
        exact processFunction_lines_pos s p _ cs name bl true h f hf
    | otherK =>
        intro f hf
        simp only [visitNode] at hf
        refine visitList_lines_pos _ cs ?_ f hf
        exact h

theorem processFunction_lines_pos (s : AnalyzerState) (p : Pos) (kind : Kind)
    (cs : List Node) (name : String) (bl : Nat) (ia : Bool)
    (h : ∀ f ∈ s.functions, 1 ≤ f.lines) :
    ∀ f ∈ (processFunction s p kind cs name bl ia).functions, 1 ≤ f.lines := by
  unfold processFunction
  dsimp only
  apply visitList_lines_pos
  intro f hf
  rcases List.mem_append.1 hf with h1 | h2
  · exact h f h1
  · rcases List.mem_singleton.1 h2 with rfl
    exact Nat.le_add_left 1 _

theorem visitList_lines_pos (s : AnalyzerState) (cs : List Node)
    (h : ∀ f ∈ s.functions, 1 ≤ f.lines) :
    ∀ f ∈ (visitList s cs).functions, 1 ≤ f.lines := by
  match cs with
  | [] =>
    intro f hf
    simp only [visitList] at hf
    exact h f hf
  | c :: cs1 =>
    intro f hf
    simp only [visitList] at hf
    exact visitList_lines_pos (visitNode s c) cs1 (visitNode_lines_pos s c h) f hf
end

/-- C9: the recorded importedNames cover every import statement occurring
anywhere in the syntax tree — inside function bodies and class bodies at
any nesting depth included — and equal the pre-order (tree-visitation
order) flattening of the per-statement entries. -/
theorem c9_nested_imports (t : Node) :
    (visitNode initState t).imports = importsOf t := by
  rw [visitNode_imports]
  simp [initState]

/-- C8: a plain import records each alias name as written; a from-import
with nonempty module prefix M records M.name per alias; with no module
prefix the bare names are recorded; entries are appended in declaration
order and duplicates are preserved (the result is literally the previous
imports extended with the statement's entries). -/
theorem c8_import_extraction (s : AnalyzerState) (p : Pos) (cs : List Node)
    (names : List String) (M : String) :
    ((visitNode s (.mk p (.importK names) cs)).imports
        = s.imports ++ names ++ importsOfList cs)
    ∧ (M ≠ "" →
      (visitNode s (.mk p (.importFromK (some M) names) cs)).imports
        = s.imports ++ names.map (fun x => M ++ "." ++ x) ++ importsOfList cs)
    ∧ ((visitNode s (.mk p (.importFromK none names) cs)).imports
        = s.imports ++ names ++ importsOfList cs) := by
  refine ⟨?_, ?_, ?_⟩
  · rw [visitNode_imports]
    simp [importsOf, importEntriesOf]
  · intro hM
    rw [visitNode_imports]
    simp [importsOf, importEntriesOf, hM]
  · rw [visitNode_imports]
    simp [importsOf, importEntriesOf]

/-- Witness for C8: the from-import of path, path from os records
os.path twice, in order, duplicates preserved. -/
theorem c8_import_extraction_witness :
    (visitNode initState (.mk ⟨some 1, none⟩ (.importFromK (some "os") ["path", "path"]) [])).imports
      = ["os.path", "os.path"] := by
  have h := (c8_import_extraction initState ⟨some 1, none⟩ [] ["path", "path"] "os").2.1
    (by decide)
  simpa [initState, importsOfList] using h

/-- C5: for the FunctionInfo emitted by _process_function, the computed
end line is at least the start line (the clamp in _find_function_end),
the recorded lineCount equals endLine - startLine + 1, and consequently
every FunctionInfo the extractor emits has lineCount at least 1. -/
theorem c5_function_line_span (s : AnalyzerState) (p : Pos) (kind : Kind)
    (cs : List Node) (name : String) (bl : Nat) (ia : Bool) :
    linenoVal p ≤ find_function_end (Node.mk p kind cs)
    ∧ (∃ fi l, (processFunction s p kind cs name bl ia).functions = s.functions ++ fi :: l
        ∧ fi.lines = find_function_end (Node.mk p kind cs) - linenoVal p + 1)
    ∧ (∀ t f, f ∈ (visitNode initState t).functions → 1 ≤ f.lines) := by
  refine ⟨?_, processFunction_funcs_append s p kind cs name bl ia, ?_⟩
  · exact find_function_end_ge_lineno (Node.mk p kind cs)
  · intro t f hf
    exact visitNode_lines_pos initState t (by simp [initState]) f hf

/-- Witness for C5: on the concrete sampleTree the extractor emits two
functions, both with positive line counts matching their spans. -/
theorem c5_function_line_span_witness :
    1 ≤ 3 ∧ ∀ f ∈ (visitNode initState sampleTree).functions, 1 ≤ f.lines := by
  refine ⟨by decide, ?_⟩
  intro f hf
  exact (c5_function_line_span initState ⟨none, none⟩ .otherK [] "x" 0 false).2.2
    sampleTree f hf

theorem mem_of_getLast?_eq_some {α : Type} {l : List α} {a : α}
    (h : l.getLast? = some a) : a ∈ l := by
  obtain ⟨hne, rfl⟩ := List.mem_getLast?_eq_getLast (Option.mem_def.mpr h)
  exact List.getLast_mem hne

mutual
theorem visitNode_goodFn (s : AnalyzerState) (n : Node)
    (hst : ∀ c ∈ s.class_stack, c ≠ "")
    (hfs : ∀ f ∈ s.functions, goodFn f)
    (hwf : noEmptyClassNames n = true) :
    ∀ f ∈ (visitNode s n).functions, goodFn f := by
  match n with
  | .mk p kind cs =>
    cases kind with
    | importK names =>
        intro f hf
        simp only [visitNode] at hf
        simp only [noEmptyClassNames] at hwf
        refine visitList_goodFn _ cs ?_ ?_ hwf f hf
        · exact hst
        · exact hfs
    | importFromK m names =>
        intro f hf
        simp only [visitNode] at hf
        simp only [noEmptyClassNames] at hwf
        refine visitList_goodFn _ cs ?_ ?_ hwf f hf
        · exact hst
        · exact hfs
    | classDefK name =>
        intro f hf
        simp only [visitNode] at hf
        simp only [noEmptyClassNames, Bool.and_eq_true, bne_iff_ne, ne_eq] at hwf
        refine visitList_goodFn
          { s with classes := s.classes ++ [name],
                   class_stack := s.class_stack ++ [name] } cs ?_ hfs hwf.2 f hf
        intro c hc
        rcases List.mem_append.1 hc with h1 | h2
        · exact hst c h1
        · rcases List.mem_singleton.1 h2 with rfl
          exact hwf.1
    | functionDefK name bl =>
        intro f hf
        simp only [visitNode] at hf
        simp only [noEmptyClassNames] at hwf
        exact processFunction_goodFn s p _ cs name bl false hst hfs hwf f hf
    | asyncFunctionDefK name bl =>
        intro f hf
        simp only [visitNode] at hf
        simp only [noEmptyClassNames] at hwf
        exact processFunction_goodFn s p _ cs name bl true hst hfs hwf f hf
    | otherK =>
        intro f hf
        simp only [visitNode] at hf
        simp only [noEmptyClassNames] at hwf
        refine visitList_goodFn _ cs ?_ ?_ hwf f hf
        · exact hst
        · exact hfs

theorem processFunction_goodFn (s : AnalyzerState) (p : Pos) (kind : Kind)
    (cs : List Node) (name : String) (bl : Nat) (ia : Bool)
    (hst : ∀ c ∈ s.class_stack, c ≠ "")
    (hfs : ∀ f ∈ s.functions, goodFn f)
    (hwf : noEmptyClassNamesList cs = true) :
    ∀ f ∈ (processFunction s p kind cs name bl ia).functions, goodFn f := by
  unfold processFunction
  dsimp only
  refine visitList_goodFn _ cs hst ?_ hwf
  intro f hf
  rcases List.mem_append.1 hf with h1 | h2
  · exact hfs f h1
  · rcases List.mem_singleton.1 h2 with rfl
    cases hq : s.class_stack.getLast? with
    | none =>
        right
        have hnil : s.class_stack = [] := List.getLast?_eq_none_iff.1 hq
        constructor
        · simp [hnil]
        · rfl
    | some c =>
        left
        have hmem : c ∈ s.class_stack := mem_of_getLast?_eq_some hq
        have hne : s.class_stack ≠ [] := by
          intro h
          rw [h] at hmem
          exact (List.not_mem_nil c) hmem
        constructor
        · have : s.class_stack.isEmpty = false := by
            simpa [List.isEmpty_iff] using hne
          simp [this]
        · exact ⟨c, rfl, hst c hmem⟩

theorem visitList_goodFn (s : AnalyzerState) (cs : List Node)
    (hst : ∀ c ∈ s.class_stack, c ≠ "")
    (hfs : ∀ f ∈ s.functions, goodFn f)
    (hwf : noEmptyClassNamesList cs = true) :
    ∀ f ∈ (visitList s cs).functions, goodFn f := by
  match cs with
  | [] =>
    intro f hf
    simp only [visitList] at hf
    exact hfs f hf
  | c :: cs1 =>
    intro f hf
    simp only [visitList] at hf
    simp only [noEmptyClassNamesList, Bool.and_eq_true] at hwf
    refine visitList_goodFn (visitNode s c) cs1 ?_ ?_ hwf.2 f hf
    · rw [visitNode_stack]
      exact hst
    · exact visitNode_goodFn s c hst hfs hwf.1
end

theorem sumVals_bump (mc : List (String × Nat)) (k : String) :
    sumVals (bump mc k) = sumVals mc + 1 := by
  induction mc with
  | nil => simp [bump, sumVals]
  | cons kv rest ih =>
    obtain ⟨k1, v⟩ := kv
    by_cases h : k1 = k
    · simp [bump, h, sumVals]
      omega
    · simp only [bump, h, if_false]
      simp only [sumVals, List.map_cons, List.sum_cons] at ih ⊢
      omega

theorem mem_bump (mc : List (String × Nat)) (k : String) (kv : String × Nat)
    (h : kv ∈ bump mc k) : kv.1 = k ∨ kv ∈ mc := by
  induction mc with
  | nil =>
    simp [bump] at h
    simp [h]
  | cons kv1 rest ih =>
    obtain ⟨k1, v⟩ := kv1
    by_cases h1 : k1 = k
    · simp only [bump, h1, if_true] at h
      rcases List.mem_cons.1 h with rfl | h2
      · left; rfl
      · right; exact List.mem_cons_of_mem _ h2
    · simp only [bump, h1, if_false] at h
      rcases List.mem_cons.1 h with rfl | h2
      · right; exact List.mem_cons_self _ _
      · rcases ih h2 with h3 | h3
        · left; exact h3
        · right; exact List.mem_cons_of_mem _ h3

theorem bump_pos (mc : List (String × Nat)) (k : String)
    (h : ∀ kv ∈ mc, 1 ≤ kv.2) : ∀ kv ∈ bump mc k, 1 ≤ kv.2 := by
  induction mc with
  | nil =>
    intro kv hkv
    simp [bump] at hkv
    simp [hkv]
  | cons kv1 rest ih =>
    obtain ⟨k1, v⟩ := kv1
    intro kv hkv
    by_cases h1 : k1 = k
    · simp only [bump, h1, if_true] at hkv
      rcases List.mem_cons.1 hkv with rfl | h2
      · omega
      · exact h kv (List.mem_cons_of_mem _ h2)
    · simp only [bump, h1, if_false] at hkv
      rcases List.mem_cons.1 hkv with rfl | h2
      · exact h _ (List.mem_cons_self _ _)
      · exact ih (fun g hg => h g (List.mem_cons_of_mem _ hg)) kv h2

theorem countsFold (fs : List FunctionInfo) (acc : List (String × Nat) × Nat)
    (hgood : ∀ f ∈ fs, goodFn f) :
    ((fs.foldl countsStep acc).2 + sumVals (fs.foldl countsStep acc).1
        = acc.2 + sumVals acc.1 + fs.length)
    ∧ (∀ kv ∈ (fs.foldl countsStep acc).1,
        kv ∈ acc.1 ∨ ∃ f ∈ fs, f.is_method = true ∧ f.class_name = some kv.1)
    ∧ ((∀ kv ∈ acc.1, 1 ≤ kv.2) → ∀ kv ∈ (fs.foldl countsStep acc).1, 1 ≤ kv.2) := by
  induction fs generalizing acc with
  | nil => simp
  | cons f fs ih =>
    have hgf := hgood f (List.mem_cons_self _ _)
    have hrest : ∀ g ∈ fs, goodFn g := fun g hg => hgood g (List.mem_cons_of_mem _ hg)
    rw [List.foldl_cons]
    obtain ⟨ih1, ih2, ih3⟩ := ih (countsStep acc f) hrest
    rcases hgf with ⟨hm, c, hc, hcne⟩ | ⟨hm, hc⟩
    · have hstep : countsStep acc f = (bump acc.1 c, acc.2) := by
        simp [countsStep, hm, hc, classNameTruthy, hcne]
      rw [hstep] at ih1 ih2 ih3 ⊢
      refine ⟨?_, ?_, ?_⟩
      · rw [ih1]
        dsimp only
        rw [sumVals_bump]
        simp only [List.length_cons]
        omega
      · intro kv hkv
        rcases ih2 kv hkv with hmem | ⟨g, hg, hgm, hgc⟩
        · dsimp only at hmem
          rcases mem_bump acc.1 c kv hmem with h1 | h2
          · right
            exact ⟨f, List.mem_cons_self _ _, hm, by rw [hc, h1]⟩
          · left; exact h2
        · right
          exact ⟨g, List.mem_cons_of_mem _ hg, hgm, hgc⟩
      · intro hpos kv hkv
        refine ih3 ?_ kv hkv
        dsimp only
        exact bump_pos acc.1 c hpos
    · have hstep : countsStep acc f = (acc.1, acc.2 + 1) := by
        simp [countsStep, hm, hc, classNameTruthy]
      rw [hstep] at ih1 ih2 ih3 ⊢
      refine ⟨?_, ?_, ?_⟩
      · rw [ih1]
        dsimp only
        simp only [List.length_cons]
        omega
      · intro kv hkv
        rcases ih2 kv hkv with hmem | ⟨g, hg, hgm, hgc⟩
        · left; exact hmem
        · right; exact ⟨g, List.mem_cons_of_mem _ hg, hgm, hgc⟩
      · intro hpos kv hkv
        exact ih3 hpos kv hkv

theorem countsLoop_spec (fs : List FunctionInfo) (hgood : ∀ f ∈ fs, goodFn f) :
    (countsLoop fs).2 + sumVals (countsLoop fs).1 = fs.length
    ∧ ∀ kv ∈ (countsLoop fs).1,
        1 ≤ kv.2 ∧ ∃ f ∈ fs, f.is_method = true ∧ f.class_name = some kv.1 := by
  obtain ⟨h1, h2, h3⟩ := countsFold fs ([], 0) hgood
  unfold countsLoop
  refine ⟨by simpa [sumVals] using h1, ?_⟩
  intro kv hkv
  refine ⟨h3 (by simp) kv hkv, ?_⟩
  rcases h2 kv hkv with hm | he
  · simp at hm
  · exact he

/-- C4: for every FileAnalysis the analyzer produces (failure results
included, given a parse tree with nonempty class names as ast.parse
guarantees), topLevelFunctionCount plus the sum of methodCountsByType
equals the number of functions, and every methodCountsByType entry has a
positive count and is the container of at least one extracted method. -/
theorem c4_method_count_partition (fi : FileInput) (hwf : fi.wf = true) :
    (analyze_file fi).top_level_functions + sumVals (analyze_file fi).method_counts
      = (analyze_file fi).functions.length
    ∧ ∀ kv ∈ (analyze_file fi).method_counts,
        1 ≤ kv.2 ∧ ∃ f ∈ (analyze_file fi).functions,
          f.is_method = true ∧ f.class_name = some kv.1 := by
  unfold analyze_file
  by_cases h0 : fi.lines = 0
  · simp [h0, sumVals]
  · simp only [h0, if_false]
    cases hr : fi.readRes with
    | error e => simp [sumVals]
    | ok u =>
      cases hp : fi.parseRes with
      | error e => simp [sumVals]
      | ok tree =>
        have hwt : noEmptyClassNames tree = true := by
          unfold FileInput.wf at hwf
          rw [hp] at hwf
          exact hwf
        have hgood : ∀ f ∈ (visitNode initState tree).functions, goodFn f :=
          visitNode_goodFn initState tree (by simp [initState]) (by simp [initState]) hwt
        obtain ⟨hc1, hc2⟩ := countsLoop_spec (visitNode initState tree).functions hgood
        dsimp only
        exact ⟨by omega, hc2⟩

/-- Witness for C4: the concrete sampleInput (a class with one method and
one async top-level function) satisfies the partition equation. -/
theorem c4_method_count_partition_witness :
    FileInput.wf sampleInput = true ∧
    (analyze_file sampleInput).top_level_functions
        + sumVals (analyze_file sampleInput).method_counts
      = (analyze_file sampleInput).functions.length := by
  have hwf : FileInput.wf sampleInput = true := by decide
  exact ⟨hwf, (c4_method_count_partition sampleInput hwf).1⟩

theorem collect_length (files : List FileInput) :
    (collect_python_files files).length = files.length := by
  induction files with
  | nil => rfl
  | cons fi rest ih => simp [collect_python_files, ih]

/-- C2 (amended): a per-file failure (unreadable, undecodable or
unparsable content) does not abort the run: the file yields a
FileAnalysis with no declared types, no functions, no imports, no method
counts, zero top-level count and exactly one explanatory note;
totalLines equals the counted line total (0 exactly when the initial
read or decode failed, the nonzero count when the content was read but a
later read or the parse failed); and the Collector analyzes every file
regardless. -/
theorem c2_per_file_failure (fi : FileInput)
    (hfail : fi.lines = 0 ∨ (∃ e, fi.readRes = .error e) ∨ (∃ e, fi.parseRes = .error e)) :
    (analyze_file fi).classes = []
    ∧ (analyze_file fi).functions = []
    ∧ (analyze_file fi).imports = []
    ∧ (analyze_file fi).method_counts = []
    ∧ (analyze_file fi).top_level_functions = 0
    ∧ (analyze_file fi).notes.length = 1
    ∧ (analyze_file fi).lines = fi.lines
    ∧ (∀ files : List FileInput, (collect_python_files files).length = files.length) := by
  unfold analyze_file
  by_cases h0 : fi.lines = 0
  · simp [h0, collect_length]
  · simp only [h0, if_false]
    cases hr : fi.readRes with
    | error e => simp [collect_length]
    | ok u =>
      cases hp : fi.parseRes with
      | error e => simp [collect_length]
      | ok tree =>
        exfalso
        rcases hfail with h | ⟨e, he⟩ | ⟨e, he⟩
        · exact h0 h
        · rw [hr] at he; exact Except.noConfusion he
        · rw [hp] at he; exact Except.noConfusion he

/-- Witness for C2: the concrete unparsable input yields an analysis
with no functions and exactly one note. -/
theorem c2_per_file_failure_witness :
    (analyze_file cexParseFail).functions = []
    ∧ (analyze_file cexParseFail).notes.length = 1 := by
  have h := c2_per_file_failure cexParseFail (Or.inr (Or.inr ⟨"invalid syntax", rfl⟩))
  exact ⟨h.2.1, h.2.2.2.2.2.1⟩

/-- Counterexample for C2 as stated: the unparsable file cexParseFail has
a counted line total of 3, so its failure FileAnalysis does not have
zero lines. -/
theorem c2_per_file_failure_cex :
    (analyze_file cexParseFail).lines = 3
    ∧ (analyze_file cexParseFail).lines ≠ 0 := by
  refine ⟨rfl, by decide⟩

theorem filter_orderedInsert (k : Nat) (a : FileAnalysis) (l : List FileAnalysis) :
    (l.orderedInsert linesGE a).filter (fun x => x.lines = k)
      = if a.lines = k then a :: l.filter (fun x => x.lines = k)
        else l.filter (fun x => x.lines = k) := by
  induction l with
  | nil =>
    simp only [List.orderedInsert, List.filter]
    by_cases hak : a.lines = k <;> simp [hak]
  | cons b bs ih =>
    by_cases hr : linesGE a b
    · simp only [List.orderedInsert, if_pos hr]
      by_cases hak : a.lines = k <;> simp [hak, List.filter_cons]
    · simp only [List.orderedInsert, if_neg hr]
      unfold linesGE at hr
      by_cases hak : a.lines = k
      · have hbk : b.lines ≠ k := by omega
        simp [List.filter_cons, hbk, hak, ih]
      · simp [List.filter_cons, hak, ih]

theorem filter_sortAnalyses (k : Nat) (l : List FileAnalysis) :
    (sortAnalyses l).filter (fun x => x.lines = k) = l.filter (fun x => x.lines = k) := by
  induction l with
  | nil => rfl
  | cons a l ih =>
    unfold sortAnalyses at ih ⊢
    simp only [List.insertionSort]
    rw [filter_orderedInsert]
    by_cases hak : a.lines = k
    · simp [hak, ih, List.filter_cons]
    · simp [hak, ih, List.filter_cons]

/-- C7: the Reporter's sort is a permutation of the collected analyses,
ordered by totalLines descending, and stable — for every line count the
analyses having it appear in exactly their original discovery order —
and the displayed list is the first min(n, count) entries of the sorted
list, with 20 as the default for n. -/
theorem c7_reporter_sort (l : List FileAnalysis) (n : Int) :
    (sortAnalyses l).Perm l
    ∧ (sortAnalyses l).Pairwise (fun a b => b.lines ≤ a.lines)
    ∧ (∀ k : Nat, (sortAnalyses l).filter (fun a => a.lines = k)
        = l.filter (fun a => a.lines = k))
    ∧ displayedFiles n l = (sortAnalyses l).take (min n (l.length : Int)).toNat
    ∧ displayedFiles defaultN l = (sortAnalyses l).take 20 := by
  refine ⟨List.perm_insertionSort linesGE l,
    List.sorted_insertionSort linesGE l,
    fun k => filter_sortAnalyses k l, rfl, ?_⟩
  unfold displayedFiles defaultN
  dsimp only
  have hlen : (sortAnalyses l).length = l.length :=
    (List.perm_insertionSort linesGE l).length_eq
  by_cases h : (l.length : Int) ≤ 20
  · have h20 : (min (20 : Int) (l.length : Int)).toNat = l.length := by omega
    rw [h20, List.take_of_length_le (by omega), List.take_of_length_le (by omega)]
  · have h20 : (min (20 : Int) (l.length : Int)).toNat = 20 := by omega
    rw [h20]

/-- C10: on a non-empty collection the program prints exactly
max(0, min(n, number of files)) file blocks and exits with code 0; for
n at most 0 no block is printed. -/
theorem c10_display_count (n : Int) (l : List FileAnalysis) (hne : l ≠ []) :
    (runMain n l).1 = 0
    ∧ ((runMain n l).2.length : Int) = max 0 (min n (l.length : Int))
    ∧ (n ≤ 0 → (runMain n l).2 = []) := by
  have hie : l.isEmpty = false := by
    cases l with
    | nil => exact absurd rfl hne
    | cons a l => rfl
  unfold runMain
  rw [hie]
  simp only [Bool.false_eq_true, if_false]
  unfold displayedFiles
  dsimp only
  have hlen : (sortAnalyses l).length = l.length :=
    (List.perm_insertionSort linesGE l).length_eq
  refine ⟨trivial, ?_, ?_⟩
  · rw [List.length_take, hlen]
    omega
  · intro hn
    have h0 : (min n (l.length : Int)).toNat = 0 := by omega
    rw [h0]
    exact List.take_zero _

/-- Witness for C10: with n = -1 and one collected file, no block is
printed and the exit code is 0. -/
theorem c10_display_count_witness :
    (runMain (-1) [fa "a.py" 5]).2 = [] ∧ (runMain (-1) [fa "a.py" 5]).1 = 0 := by
  have h := c10_display_count (-1) [fa "a.py" 5] (by simp)
  exact ⟨h.2.2 (by omega), h.1⟩

theorem mem_ite_singleton {α : Type} {c : Prop} [Decidable c] {x a : α} :
    (a ∈ if c then [x] else ([] : List α)) ↔ c ∧ a = x := by
  split_ifs with h <;> simp [h]

theorem mem_ite_pair {α : Type} {c1 c2 : Prop} [Decidable c1] [Decidable c2] {x y a : α} :
    (a ∈ if c1 then [x] else if c2 then [y] else ([] : List α))
      ↔ (c1 ∧ a = x) ∨ (¬c1 ∧ c2 ∧ a = y) := by
  split_ifs with h1 h2 <;> simp [*]

theorem veryLong_mem_buildNotes (cs : List String) (fs : List FunctionInfo)
    (imps : List String) (k : Nat) :
    Note.veryLongFunctions k ∈ buildNotes cs fs imps ↔
      ((fs.filter fun f => 100 < f.lines) ≠ []
        ∧ k = (fs.filter fun f => 100 < f.lines).length) := by
  unfold buildNotes
  dsimp only
  simp only [List.mem_append, mem_ite_singleton, mem_ite_pair]
  simp

theorem long_mem_buildNotes (cs : List String) (fs : List FunctionInfo)
    (imps : List String) (k : Nat) :
    Note.longFunctions k ∈ buildNotes cs fs imps ↔
      ((fs.filter fun f => 100 < f.lines) = []
        ∧ (fs.filter fun f => 50 < f.lines) ≠ []
        ∧ k = (fs.filter fun f => 50 < f.lines).length) := by
  unfold buildNotes
  dsimp only
  simp only [List.mem_append, mem_ite_singleton, mem_ite_pair]
  simp

theorem filter_lines_ne_nil (c : Nat) (fs : List FunctionInfo) :
    (fs.filter fun f => c < f.lines) ≠ [] ↔ ∃ f ∈ fs, c < f.lines := by
  rw [ne_eq, List.filter_eq_nil_iff]
  push_neg
  simp

/-- C6: per analyzed file the long-function warning is emitted at most
once: a very-long note (with the count of functions over 100 lines) is
present exactly when some function exceeds 100 lines; otherwise a long
note (with the count of functions over 50 lines) is present exactly when
some function exceeds 50 lines; the two are never both present. -/
theorem c6_long_function_warning (fi : FileInput) :
    ((∃ k, Note.veryLongFunctions k ∈ (analyze_file fi).notes)
        ↔ ∃ f ∈ (analyze_file fi).functions, 100 < f.lines)
    ∧ ((∃ k, Note.longFunctions k ∈ (analyze_file fi).notes)
        ↔ ((¬ ∃ f ∈ (analyze_file fi).functions, 100 < f.lines)
            ∧ ∃ f ∈ (analyze_file fi).functions, 50 < f.lines))
    ∧ ¬ ((∃ k, Note.veryLongFunctions k ∈ (analyze_file fi).notes)
        ∧ ∃ k, Note.longFunctions k ∈ (analyze_file fi).notes)
    ∧ (∀ k, Note.veryLongFunctions k ∈ (analyze_file fi).notes
        → k = ((analyze_file fi).functions.filter fun f => 100 < f.lines).length)
    ∧ (∀ k, Note.longFunctions k ∈ (analyze_file fi).notes
        → k = ((analyze_file fi).functions.filter fun f => 50 < f.lines).length) := by
  unfold analyze_file
  by_cases h0 : fi.lines = 0
  · simp [h0]
  · simp only [h0, if_false]
    cases hr : fi.readRes with
    | error e => simp
    | ok u =>
      cases hp : fi.parseRes with
      | error e => simp
      | ok tree =>
        dsimp only
        refine ⟨?_, ?_, ?_, ?_, ?_⟩
        · simp only [veryLong_mem_buildNotes, filter_lines_ne_nil]
          simp
        · simp only [long_mem_buildNotes, filter_lines_ne_nil]
          constructor
          · rintro ⟨k, h1, h2, -⟩
            refine ⟨?_, h2⟩
            rw [← filter_lines_ne_nil 100]
            simp [h1]
          · rintro ⟨h1, h2⟩
            rw [← filter_lines_ne_nil 100, not_not] at h1
            exact ⟨_, h1, h2, rfl⟩
        · rintro ⟨⟨k1, hk1⟩, ⟨k2, hk2⟩⟩
          rw [veryLong_mem_buildNotes] at hk1
          rw [long_mem_buildNotes] at hk2
          exact hk1.1 hk2.1
        · intro k hk
          rw [veryLong_mem_buildNotes] at hk
          exact hk.2
        · intro k hk
          rw [long_mem_buildNotes] at hk
          exact hk.2.2

/-- Witness for C6: the concrete 60-line function file gets a long-
function note (over 50 lines). -/
theorem c6_long_function_warning_witness :
    ∃ k, Note.longFunctions k ∈ (analyze_file w6Input).notes := by
  have hfuncs : (analyze_file w6Input).functions
      = [⟨"big", 60, 3, false, false, none⟩] := by
    simp [analyze_file, w6Input, w6Tree, visitNode, visitList, processFunction,
      initState, find_function_end, find_last_node, truthyEnd, linenoVal, Node.pos]
  refine (c6_long_function_warning w6Input).2.1.mpr ⟨?_, ?_⟩
  · rw [hfuncs]
    decide
  · rw [hfuncs]
    decide

end PyAnalyzer
